import Mathlib

/-!
Verification of the search-scrape-analyze tool (`tools/search_scrape.py`).

Python strings are embedded as `List Char`; the case conversions model the
ASCII behaviour of `str.lower` / `str.capitalize` (the repository only
manipulates ASCII boilerplate phrases and formats). External effects are
embedded as explicit parameters:
 * the HTTP search response and each page fetch/parse become `Except` values,
 * the NLTK sentence/word tokenizers and the NLTK English stopword list are
   abstract parameters (they are library data, not repository code).
-/

/-- Whitespace as recognised by Python `str.split()` (ASCII fragment). -/
def pyIsSpace (c : Char) : Bool :=
  c = ' ' || c = '\t' || c = '\n' || c = '\r' || c = '\x0b' || c = '\x0c'

/-- Embedding of Python `str.lower` (ASCII): lowercase every character. -/
def lowerStr (s : List Char) : List Char := s.map Char.toLower

/-- Embedding of Python `str.capitalize`: first character uppercased, the
rest lowercased. -/
def pyCapitalize : List Char → List Char
  | [] => []
  | c :: rest => Char.toUpper c :: lowerStr rest

/-- Worker for `pySplit`: accumulates the current (reversed) word. -/
def pySplitAux : List Char → List Char → List (List Char)
  | [], acc => if acc.isEmpty then [] else [acc.reverse]
  | c :: rest, acc =>
    if pyIsSpace c then
      if acc.isEmpty then pySplitAux rest [] else acc.reverse :: pySplitAux rest []
    else pySplitAux rest (c :: acc)

/-- Embedding of Python `str.split()` (no argument): split on runs of
whitespace, dropping empty pieces. -/
def pySplit (s : List Char) : List (List Char) := pySplitAux s []

/-- Embedding of Python `" ".join(words)`. -/
def joinSpace : List (List Char) → List Char
  | [] => []
  | [w] => w
  | w :: ws => w ++ ' ' :: joinSpace ws

/-- Embedding of the Python substring test `pat in s`. -/
def containsSub (pat : List Char) : List Char → Bool
  | [] => pat.isEmpty
  | c :: rest => pat.isPrefixOf (c :: rest) || containsSub pat rest

/-- Worker for `removePhrase`: scan left to right; `k` counts characters of a
matched occurrence still to be skipped, so matched text is consumed without
re-examination (the non-overlapping scan of Python `str.replace`). -/
def removeAux (pat : List Char) : Nat → List Char → List Char
  | _, [] => []
  | k + 1, _ :: rest => removeAux pat k rest
  | 0, c :: rest =>
    if pat ≠ [] ∧ pat.isPrefixOf (c :: rest) then
      removeAux pat (pat.length - 1) rest
    else
      c :: removeAux pat 0 rest

/-- Embedding of Python `s.replace(pat, "")`: delete every leftmost,
non-overlapping occurrence of `pat`. -/
def removePhrase (pat : List Char) (s : List Char) : List Char :=
  removeAux pat 0 s

/-- Skipping `k` characters is dropping them. -/
theorem removeAux_skip (pat : List Char) :
    ∀ (s : List Char) (k : Nat), removeAux pat k s = removeAux pat 0 (s.drop k) := by
  intro s
  induction s with
  | nil => intro k; cases k <;> rfl
  | cons c r ih =>
    intro k
    cases k with
    | zero => rfl
    | succ k' =>
      show removeAux pat k' r = _
      rw [ih k']
      rfl

/-- The defining recurrence of Python `str.replace` with the empty
replacement: on a match, continue after the matched occurrence. -/
theorem removePhrase_cons_match {pat : List Char} {c : Char} {rest : List Char}
    (hne : pat ≠ []) (hpre : pat.isPrefixOf (c :: rest) = true) :
    removePhrase pat (c :: rest) = removePhrase pat ((c :: rest).drop pat.length) := by
  show removeAux pat 0 (c :: rest) = _
  rw [show removeAux pat 0 (c :: rest) = if pat ≠ [] ∧ pat.isPrefixOf (c :: rest) then
      removeAux pat (pat.length - 1) rest else c :: removeAux pat 0 rest from rfl,
    if_pos ⟨hne, hpre⟩, removeAux_skip]
  have : (c :: rest).drop pat.length = rest.drop (pat.length - 1) := by
    cases hp : pat with
    | nil => exact absurd hp hne
    | cons p ps => simp
  rw [this]
  rfl

theorem removePhrase_cons_nomatch {pat : List Char} {c : Char} {rest : List Char}
    (h : ¬(pat ≠ [] ∧ pat.isPrefixOf (c :: rest) = true)) :
    removePhrase pat (c :: rest) = c :: removePhrase pat rest := by
  show removeAux pat 0 (c :: rest) = _
  rw [show removeAux pat 0 (c :: rest) = if pat ≠ [] ∧ pat.isPrefixOf (c :: rest) then
      removeAux pat (pat.length - 1) rest else c :: removeAux pat 0 rest from rfl,
    if_neg h]
  rfl

/-! ### Character-level facts about the ASCII case maps -/

theorem char_toNat_ofNat_valid {n : Nat} (h : n < 55296) : (Char.ofNat n).toNat = n := by
  unfold Char.ofNat
  rw [dif_pos (Or.inl h)]
  simp [Char.ofNatAux, Char.toNat, UInt32.toNat]

theorem char_eq_of_toNat_eq {c d : Char} (h : c.toNat = d.toNat) : c = d := by
  have hc := Char.ofNat_toNat c
  rw [h, Char.ofNat_toNat] at hc
  exact hc.symm

theorem toNat_toLower (c : Char) :
    (Char.toLower c).toNat = if 65 ≤ c.toNat ∧ c.toNat ≤ 90 then c.toNat + 32 else c.toNat := by
  unfold Char.toLower
  split
  · next h =>
    rw [if_pos ⟨h.1, h.2⟩]
    exact char_toNat_ofNat_valid (by omega)
  · next h =>
    rw [if_neg (by intro h2; exact h ⟨h2.1, h2.2⟩)]

theorem toNat_toUpper (c : Char) :
    (Char.toUpper c).toNat = if 97 ≤ c.toNat ∧ c.toNat ≤ 122 then c.toNat - 32 else c.toNat := by
  unfold Char.toUpper
  split
  · next h =>
    rw [if_pos ⟨h.1, h.2⟩]
    exact char_toNat_ofNat_valid (by omega)
  · next h =>
    rw [if_neg (by intro h2; exact h ⟨h2.1, h2.2⟩)]

theorem toLower_toLower (c : Char) : Char.toLower (Char.toLower c) = Char.toLower c := by
  apply char_eq_of_toNat_eq
  simp only [toNat_toLower]
  split_ifs <;> omega

theorem toLower_toUpper_toLower (c : Char) :
    Char.toLower (Char.toUpper (Char.toLower c)) = Char.toLower c := by
  apply char_eq_of_toNat_eq
  simp only [toNat_toLower, toNat_toUpper]
  split_ifs <;> omega

theorem pyIsSpace_of_ge {c : Char} (h : 33 ≤ c.toNat) : pyIsSpace c = false := by
  unfold pyIsSpace
  have f : ∀ (d : Char), d.toNat ≤ 32 → decide (c = d) = false := fun d hd =>
    decide_eq_false fun he => by subst he; omega
  rw [f ' ' (by decide), f '\t' (by decide), f '\n' (by decide), f '\r' (by decide),
    f '\x0b' (by decide), f '\x0c' (by decide)]
  rfl

theorem toLower_of_not_upper {c : Char} (h : ¬(65 ≤ c.toNat ∧ c.toNat ≤ 90)) :
    Char.toLower c = c := by
  unfold Char.toLower
  exact if_neg fun h2 => h ⟨h2.1, h2.2⟩

theorem toUpper_of_not_lower {c : Char} (h : ¬(97 ≤ c.toNat ∧ c.toNat ≤ 122)) :
    Char.toUpper c = c := by
  unfold Char.toUpper
  exact if_neg fun h2 => h ⟨h2.1, h2.2⟩

theorem pyIsSpace_toLower (c : Char) : pyIsSpace (Char.toLower c) = pyIsSpace c := by
  by_cases h : 65 ≤ c.toNat ∧ c.toNat ≤ 90
  · rw [pyIsSpace_of_ge (c := Char.toLower c) (by rw [toNat_toLower, if_pos h]; omega),
      pyIsSpace_of_ge (c := c) (by omega)]
  · rw [toLower_of_not_upper h]

theorem pyIsSpace_toUpper (c : Char) : pyIsSpace (Char.toUpper c) = pyIsSpace c := by
  by_cases h : 97 ≤ c.toNat ∧ c.toNat ≤ 122
  · rw [pyIsSpace_of_ge (c := Char.toUpper c) (by rw [toNat_toUpper, if_pos h]; omega),
      pyIsSpace_of_ge (c := c) (by omega)]
  · rw [toUpper_of_not_lower h]

theorem uint32_le_iff_toNat {a b : UInt32} : a ≤ b ↔ a.toNat ≤ b.toNat := by
  rw [UInt32.le_def, BitVec.le_def]
  exact Iff.rfl

theorem isUpper_iff_toNat (c : Char) : c.isUpper = true ↔ 65 ≤ c.toNat ∧ c.toNat ≤ 90 := by
  unfold Char.isUpper
  rw [Bool.and_eq_true, decide_eq_true_iff, decide_eq_true_iff, ge_iff_le,
    uint32_le_iff_toNat, uint32_le_iff_toNat]
  have h65 : (65 : UInt32).toNat = 65 := by decide
  have h90 : (90 : UInt32).toNat = 90 := by decide
  rw [h65, h90]
  exact Iff.rfl

theorem isUpper_toLower (c : Char) : (Char.toLower c).isUpper = false := by
  rw [Bool.eq_false_iff]
  intro hu
  rw [isUpper_iff_toNat, toNat_toLower] at hu
  by_cases h : 65 ≤ c.toNat ∧ c.toNat ≤ 90
  · rw [if_pos h] at hu
    omega
  · rw [if_neg h] at hu
    exact h hu

/-! ### Data model

`RawResult` embeds one entry of the `organic` array returned by the search
provider (a Python dict read with `.get`, hence every field is optional).
`Soup` embeds the data the tool reads from a successfully fetched and parsed
page: the title string (if a title tag with a string is present), the list of
paragraph texts (`find_all` of paragraph tags), the total visible text
(`get_text`), and the presence of author and citation/reference markers. -/

structure RawResult where
  link : Option (List Char)
  snippet : Option (List Char)
  date : Option (List Char)
  error : Option (List Char)
deriving DecidableEq

structure Soup where
  title : Option (List Char)
  paragraphs : List (List Char)
  text : List Char
  hasAuthor : Bool
  hasCite : Bool
deriving DecidableEq

/-- The unit of output of the analyzer: the Success and Failure variants of a
PageAnalysis record. The nondeterministic wall-clock field scraped_date is
omitted from the embedding; every other field of the Python dicts is kept. -/
inductive PageAnalysis where
  | success (url : Option (List Char)) (title : List Char) (search_snippet : List Char)
      (summary : List Char) (keywords : List (List Char)) (reading_time : List Char)
      (credibility_score : ℚ) (search_date : Option (List Char))
  | failure (url : Option (List Char)) (error : List Char) (search_snippet : List Char)
      (search_date : Option (List Char))
deriving DecidableEq

/-- The url field stored in a PageAnalysis record (both variants carry it). -/
def PageAnalysis.url : PageAnalysis → Option (List Char)
  | .success u _ _ _ _ _ _ _ => u
  | .failure u _ _ _ => u

/-- Whether a PageAnalysis record is the Failure variant. -/
def PageAnalysis.isFailure : PageAnalysis → Bool
  | .success _ _ _ _ _ _ _ _ => false
  | .failure _ _ _ _ => true

/-! ### The tool functions (from `tools/search_scrape.py`) -/

/-- The fixed denylist of boilerplate phrases of `_clean_text` and
`_is_relevant_paragraph`. -/
def unwanted_phrases : List (List Char) :=
  [("sign in").data, ("sign up").data, ("join us").data, ("get started").data,
   ("subscribe").data, ("cookie").data, ("privacy policy").data,
   ("terms of service").data, ("all rights reserved").data]

/-- Embedding of `_clean_text`: lowercase, delete every denylisted phrase by
substring removal (in list order), collapse whitespace runs via
`" ".join(text.split())`, then `capitalize`. -/
def clean_text (text : List Char) : List Char :=
  pyCapitalize (joinSpace (pySplit
    (unwanted_phrases.foldl (fun s p => removePhrase p s) (lowerStr text))))

/-- Embedding of `_is_relevant_paragraph`: raw length at least 50 and no
denylisted phrase occurs in the lowercased text. -/
def is_relevant_paragraph (text : List Char) : Bool :=
  decide (50 ≤ text.length) &&
    unwanted_phrases.all (fun p => !(containsSub p (lowerStr text)))

/-- Scheme splitter, modelling `urllib.parse.urlsplit`: if the url has a
colon preceded by a nonempty run of scheme characters starting with a letter,
the part before the colon (lowercased) is the scheme. -/
def isSchemeChar (c : Char) : Bool := c.isAlpha || c.isDigit || c = '+' || c = '-' || c = '.'

def schemeSplitAux : List Char → List Char → Option (List Char × List Char)
  | [], _ => none
  | c :: rest, acc =>
    if c = ':' then some (acc.reverse, rest)
    else if isSchemeChar c then schemeSplitAux rest (c :: acc)
    else none

def splitScheme (u : List Char) : List Char × List Char :=
  match schemeSplitAux u [] with
  | some (s, rest) => if (s.headD ' ').isAlpha then (lowerStr s, rest) else ([], u)
  | none => ([], u)

/-- The netloc (domain) of a url, modelling `urllib.parse.urlparse(url).netloc`:
present only when the remainder after the scheme starts with two slashes, and
extends to the next slash, question mark or hash. -/
def netlocOf (u : List Char) : List Char :=
  match (splitScheme u).2 with
  | '/' :: '/' :: r => r.takeWhile (fun c => !(c = '/' || c = '?' || c = '#'))
  | _ => []

/-- The three trusted domain markers of `_estimate_credibility`. -/
def trusted_domains : List (List Char) := [(".edu").data, (".gov").data, (".org").data]

/-- The floor of a rational, computably (`num / den` in integer division). -/
def ratFloor (q : ℚ) : ℤ := q.num / q.den

theorem ratFloor_eq_floor (q : ℚ) : ratFloor q = ⌊q⌋ := Rat.floor_def.symm

/-- Round-half-to-even on rationals, the rounding mode of Python `round`. -/
def roundHalfEven (q : ℚ) : ℤ :=
  let f := ratFloor q
  if q - f < 1/2 then f
  else if 1/2 < q - f then f + 1
  else if f % 2 = 0 then f else f + 1

/-- Embedding of Python `round(q, 2)`. On every score reachable in
`_estimate_credibility` the argument is an exact multiple of 1/10, where the
float computation rounds at two decimals to the same decimal value, so the
exact rational model is faithful. -/
def round2 (q : ℚ) : ℚ := (roundHalfEven (q * 100) : ℚ) / 100

/-- Embedding of `_estimate_credibility`: sequential accumulation of the five
bonuses, then rounding to two decimal places. The Python float literals 0.3,
0.2, 0.1 are embedded as the exact rationals they denote. -/
def estimate_credibility (url : List Char) (soup : Soup) : ℚ :=
  let s1 : ℚ := if trusted_domains.any (fun d => containsSub d (netlocOf url)) then 0 + 3/10 else 0
  let s2 : ℚ := if 2000 < soup.text.length then s1 + 2/10 else s1
  let s3 : ℚ := if soup.hasAuthor then s2 + 2/10 else s2
  let s4 : ℚ := if soup.hasCite then s3 + 2/10 else s3
  let s5 : ℚ := if ("https").data.isPrefixOf url then s4 + 1/10 else s4
  round2 s5

/-- Embedding of `_estimate_reading_time`: whitespace word count. -/
def word_count (t : List Char) : Nat := (pySplit t).length

/-- `math.ceil(word_count / 200)` as a natural number ceiling division. -/
def reading_minutes (t : List Char) : Nat := (word_count t + 199) / 200

/-- The minute formatter of `_estimate_reading_time`. -/
def fmt_minutes (n : Nat) : List Char :=
  (Nat.repr n).data ++ (" minute").data ++ (if n ≠ 1 then ("s").data else [])

/-- Embedding of `_estimate_reading_time`. -/
def estimate_reading_time (t : List Char) : List Char :=
  fmt_minutes (reading_minutes t)

/-- Stable descending sort by score. `heapq.nlargest(n, it, key)` is
documented and implemented as equivalent to `sorted(it, key=key,
reverse=True)[:n]`, a stable descending sort followed by truncation; the same
holds for `Counter.most_common(n)`. -/
def sortDesc (l : List (List Char × Nat)) : List (List Char × Nat) :=
  List.insertionSort (fun a b => b.2 ≤ a.2) l

/-- One dict update of the Python accumulation `dict[key] = dict.get(key,0)+sc`
(order-preserving: an existing key keeps its position, a new key is appended,
as in a Python dict). -/
def addScore (acc : List (List Char × Nat)) (s : List Char) (sc : Nat) :
    List (List Char × Nat) :=
  if acc.any (fun p => decide (p.1 = s)) then
    acc.map (fun p => if p.1 = s then (p.1, p.2 + sc) else p)
  else acc ++ [(s, sc)]

/-- The document-wide frequency table of `_summarize_text`: counts of the
case-folded, non-stopword tokens of all sentences (an NLTK `FreqDist`).
A token is a key of the table exactly when its count is positive. -/
def docFreq (stops : List (List Char)) (sentences : List (List Char)) (w : List Char) : Nat :=
  (((sentences.map pySplit).flatten.map lowerStr).filter
    (fun v => !(decide (v ∈ stops)))).count w

/-- The score one pass over a sentence adds in `_summarize_text`: each token
whose lowercase form is a key of the frequency table (count positive) adds
that count; duplicate tokens add repeatedly. -/
def sentenceScore (freqOf : List Char → Nat) (s : List Char) : Nat :=
  ((pySplit s).map (fun w => if 0 < freqOf (lowerStr w) then freqOf (lowerStr w) else 0)).sum

/-- The `sentence_scores` dict of `_summarize_text`: iterate the sentences in
order; a sentence touches the dict exactly when it has a token whose lowercase
form is a key of the frequency table (equivalently, its pass score is
positive), and then accumulates that score onto its entry. -/
def sentence_scores (stops : List (List Char)) (sentences : List (List Char)) :
    List (List Char × Nat) :=
  sentences.foldl (fun acc s =>
    let sc := sentenceScore (docFreq stops sentences) s
    if 0 < sc then addScore acc s sc else acc) []

/-- The 15 highest-scoring sentences selected by `nlargest(15, ...)`, in the
order the selection returns them. -/
def selected_sentences (sentTok : List Char → List (List Char))
    (stops : List (List Char)) (text : List Char) : List (List Char) :=
  ((sortDesc (sentence_scores stops (sentTok text))).take 15).map Prod.fst

/-- Embedding of `_summarize_text` (the sentence tokenizer `sent_tokenize`
and the stopword corpus are abstract NLTK parameters): join the selected
sentences, then truncate to the first `num_words` whitespace words and append
a literal ellipsis when truncation occurred. -/
def summarize_text (sentTok : List Char → List (List Char)) (stops : List (List Char))
    (text : List Char) (num_words : Nat) : List Char :=
  let summary := joinSpace (selected_sentences sentTok stops text)
  let words := pySplit summary
  if num_words < words.length then joinSpace (words.take num_words) ++ ("...").data
  else summary

/-- Python `w.isalnum()`: nonempty and every character alphanumeric (ASCII
fragment). -/
def pyIsAlnumTok (w : List Char) : Bool := !w.isEmpty && w.all Char.isAlphanum

/-- The `FreqDist`/`Counter` of `_extract_keywords` as an ordered association
list (keys in first-occurrence order, as in a Python Counter). -/
def counterList (l : List (List Char)) : List (List Char × Nat) :=
  l.foldl (fun acc w => addScore acc w 1) []

/-- Embedding of `_extract_keywords` (the word tokenizer `word_tokenize` and
the stopword corpus are abstract NLTK parameters): tokenize the lowercased
text, keep alphanumeric non-stopword tokens, return the top 10 by frequency. -/
def extract_keywords (wordTok : List Char → List (List Char)) (stops : List (List Char))
    (text : List Char) : List (List Char) :=
  let filtered := (wordTok (lowerStr text)).filter
    (fun w => pyIsAlnumTok w && !(decide (w ∈ stops)))
  ((sortDesc (counterList filtered)).take 10).map Prod.fst

/-- The prefixed per-candidate error message of `_scrape_and_analyze`. -/
def scrape_error (e : List Char) : List Char := ("Failed to scrape or analyze: ").data ++ e

/-- Modelled library behaviour: `requests.get(None)` (the candidate has no
link key) always raises `MissingSchema`; this is the message text carried
into the Failure record in that case (abbreviated, apostrophes elided; no
claim depends on its exact wording). -/
def missing_url_message : List Char :=
  ("Invalid URL None: No scheme supplied").data

/-- The cleaned snippet stored in both variants:
`_clean_text(result.get(snippet-key, "No snippet available"))`. -/
def snippet_of (r : RawResult) : List Char :=
  clean_text (r.snippet.getD (("No snippet available").data))

/-- Per-candidate body of `_scrape_and_analyze`. The whole fetch-and-parse
effect (`requests.get` with its 10s timeout, `raise_for_status`, and
BeautifulSoup parsing) is the abstract environment `env`: an exception
anywhere in the per-candidate try block is an `Except.error` carrying the
exception message. A candidate with no link raises inside `requests.get`
before any fetch. -/
def analyze_one (sentTok wordTok : List Char → List (List Char))
    (stops : List (List Char)) (env : List Char → Except (List Char) Soup)
    (r : RawResult) : PageAnalysis :=
  match r.link with
  | none => .failure none (scrape_error missing_url_message) (snippet_of r) r.date
  | some url =>
    match env url with
    | .error e => .failure (some url) (scrape_error e) (snippet_of r) r.date
    | .ok soup =>
      let title := match soup.title with
        | some t => clean_text t
        | none => ("No title found").data
      let full_text := joinSpace ((soup.paragraphs.filter is_relevant_paragraph).map clean_text)
      .success (some url) title (snippet_of r)
        (summarize_text sentTok stops full_text 500)
        (extract_keywords wordTok stops full_text)
        (estimate_reading_time full_text)
        (estimate_credibility url soup) r.date

/-- Embedding of `_scrape_and_analyze`: one output record per input record,
appended in input order. -/
def scrape_and_analyze (sentTok wordTok : List Char → List (List Char))
    (stops : List (List Char)) (env : List Char → Except (List Char) Soup)
    (results : List RawResult) : List PageAnalysis :=
  results.map (analyze_one sentTok wordTok stops env)

/-- The single-element error marker `_search` returns on a request exception:
a dict with only an error key. -/
def search_error_marker (e : List Char) : RawResult :=
  { link := none, snippet := none, date := none,
    error := some (("An error occurred while searching: ").data ++ e) }

/-- Embedding of `_search`. The POST to the provider, `raise_for_status` and
JSON decoding are the abstract `resp`: on success it carries the providers
`organic` array (empty when the key is absent), on a request exception the
exception message. -/
def search (resp : Except (List Char) (List RawResult)) : List RawResult :=
  match resp with
  | .ok organic => organic.take 5
  | .error e => [search_error_marker e]

/-- Embedding of `_run` (minus the final JSON serialization): search, then
scrape and analyze the search output. -/
def run_tool (sentTok wordTok : List Char → List (List Char))
    (stops : List (List Char)) (env : List Char → Except (List Char) Soup)
    (resp : Except (List Char) (List RawResult)) : List PageAnalysis :=
  scrape_and_analyze sentTok wordTok stops env (search resp)

/-! ### Lemmas about `pySplit` and `joinSpace` -/

theorem pySplitAux_word : ∀ (w : List Char), (∀ c ∈ w, pyIsSpace c = false) →
    ∀ (s acc : List Char), pySplitAux (w ++ s) acc = pySplitAux s (w.reverse ++ acc) := by
  intro w
  induction w with
  | nil => intro _ s acc; simp
  | cons c w' ih =>
    intro hw s acc
    have hc : pyIsSpace c = false := hw c (by simp)
    have ih' := ih (fun d hd => hw d (by simp [hd])) s (c :: acc)
    simp only [List.cons_append, pySplitAux, hc, Bool.false_eq_true, if_false, List.append_eq]
    rw [ih']
    simp

theorem pySplitAux_space (c : Char) (s acc : List Char) (hc : pyIsSpace c = true)
    (ha : acc ≠ []) : pySplitAux (c :: s) acc = acc.reverse :: pySplitAux s [] := by
  simp [pySplitAux, hc, ha]

theorem pySplitAux_nonspace_length : ∀ (t : List Char), (∀ c ∈ t, pyIsSpace c = false) →
    ∀ acc, acc ≠ [] → (pySplitAux t acc).length = 1 := by
  intro t
  induction t with
  | nil => intro _ acc ha; simp [pySplitAux, ha]
  | cons c t' ih =>
    intro ht acc ha
    have hc : pyIsSpace c = false := ht c (by simp)
    simp only [pySplitAux, hc, Bool.false_eq_true, if_false]
    exact ih (fun d hd => ht d (by simp [hd])) (c :: acc) (by simp)

theorem pySplit_wf : ∀ (s acc : List Char), (∀ c ∈ acc, pyIsSpace c = false) →
    ∀ w ∈ pySplitAux s acc, w ≠ [] ∧ ∀ c ∈ w, pyIsSpace c = false := by
  intro s
  induction s with
  | nil =>
    intro acc ha w hw
    by_cases h : acc.isEmpty
    · simp [pySplitAux, h] at hw
    · simp only [pySplitAux, h, Bool.false_eq_true, if_false, List.mem_singleton] at hw
      subst hw
      refine ⟨by simpa using fun h2 => h (by simp [h2]), fun c hc => ha c (by simpa using hc)⟩
  | cons c rest ih =>
    intro acc ha w hw
    by_cases hc : pyIsSpace c = true
    · simp only [pySplitAux, hc, if_true] at hw
      by_cases he : acc.isEmpty
      · simp only [he, if_true] at hw
        exact ih [] (by simp) w hw
      · simp only [he, Bool.false_eq_true, if_false, List.mem_cons] at hw
        rcases hw with hw | hw
        · subst hw
          refine ⟨by simpa using fun h2 => he (by simp [h2]),
            fun d hd => ha d (by simpa using hd)⟩
        · exact ih [] (by simp) w hw
    · rw [Bool.not_eq_true] at hc
      simp only [pySplitAux, hc, Bool.false_eq_true, if_false] at hw
      refine ih (c :: acc) ?_ w hw
      intro d hd
      rcases List.mem_cons.mp hd with hd | hd
      · subst hd; exact hc
      · exact ha d hd

theorem pySplit_words_wf (s : List Char) :
    ∀ w ∈ pySplit s, w ≠ [] ∧ ∀ c ∈ w, pyIsSpace c = false :=
  pySplit_wf s [] (by simp)

theorem joinSpace_cons_cons (w w2 : List Char) (ws : List (List Char)) :
    joinSpace (w :: w2 :: ws) = w ++ ' ' :: joinSpace (w2 :: ws) := rfl

theorem pySplit_joinSpace : ∀ (ws : List (List Char)),
    (∀ w ∈ ws, w ≠ [] ∧ ∀ c ∈ w, pyIsSpace c = false) → pySplit (joinSpace ws) = ws := by
  intro ws
  induction ws with
  | nil => intro _; rfl
  | cons w ws' ih =>
    intro h
    have hw := h w (by simp)
    cases ws' with
    | nil =>
      show pySplit (joinSpace [w]) = [w]
      have hj : joinSpace [w] = w ++ [] := by simp [joinSpace]
      unfold pySplit
      rw [hj, pySplitAux_word w hw.2 [] []]
      simp [pySplitAux, hw.1]
    | cons w2 ws'' =>
      unfold pySplit
      rw [joinSpace_cons_cons, pySplitAux_word w hw.2, List.append_nil,
        pySplitAux_space ' ' _ _ (by decide) (by simp [hw.1])]
      rw [List.reverse_reverse]
      have := ih (fun v hv => h v (by simp [hv]))
      unfold pySplit at this
      rw [this]

theorem pySplit_joinSpace_append_length : ∀ (ws : List (List Char)) (t : List Char),
    ws ≠ [] → (∀ w ∈ ws, w ≠ [] ∧ ∀ c ∈ w, pyIsSpace c = false) →
    (∀ c ∈ t, pyIsSpace c = false) →
    (pySplit (joinSpace ws ++ t)).length = ws.length := by
  intro ws
  induction ws with
  | nil => intro t h; exact absurd rfl h
  | cons w ws' ih =>
    intro t _ hws ht
    have hw := hws w (by simp)
    cases ws' with
    | nil =>
      have hj : joinSpace [w] ++ t = w ++ t := by simp [joinSpace]
      unfold pySplit
      rw [hj, pySplitAux_word w hw.2 t []]
      rw [pySplitAux_nonspace_length t ht _ (by simp [hw.1])]
      rfl
    | cons w2 ws'' =>
      unfold pySplit
      have hshape : joinSpace (w :: w2 :: ws'') ++ t
          = w ++ (' ' :: (joinSpace (w2 :: ws'') ++ t)) := by
        rw [joinSpace_cons_cons]
        simp
      rw [hshape, pySplitAux_word w hw.2, List.append_nil,
        pySplitAux_space ' ' _ _ (by decide) (by simp [hw.1])]
      have := ih t (by simp) (fun v hv => hws v (by simp [hv])) ht
      unfold pySplit at this
      simp only [List.length_cons, this]

/-! ### Normal form of `clean_text` output -/

/-- No two adjacent whitespace characters. -/
def noTwoSpaces : List Char → Bool
  | [] => true
  | [_] => true
  | a :: b :: rest => !(pyIsSpace a && pyIsSpace b) && noTwoSpaces (b :: rest)

/-- No two adjacent `true` entries. -/
def noTwoTrue : List Bool → Bool
  | [] => true
  | [_] => true
  | a :: b :: rest => !(a && b) && noTwoTrue (b :: rest)

theorem noTwoSpaces_eq_mask : ∀ (l : List Char), noTwoSpaces l = noTwoTrue (l.map pyIsSpace)
  | [] => rfl
  | [_] => rfl
  | a :: b :: r => by
    simp only [noTwoSpaces, List.map_cons, noTwoTrue]
    rw [noTwoSpaces_eq_mask (b :: r)]
    simp

theorem noTwoSpaces_cons (a : Char) (l : List Char) :
    noTwoSpaces (a :: l) =
      ((l.head?.all fun b => !(pyIsSpace a && pyIsSpace b)) && noTwoSpaces l) := by
  cases l <;> simp [noTwoSpaces, Option.all]

theorem noTwoSpaces_append (w t : List Char) (hw : ∀ c ∈ w, pyIsSpace c = false)
    (ht : noTwoSpaces t = true) : noTwoSpaces (w ++ t) = true := by
  induction w with
  | nil => simpa
  | cons a w' ih =>
    rw [List.cons_append, noTwoSpaces_cons]
    have ha : pyIsSpace a = false := hw a (by simp)
    have ih' := ih (fun c hc => hw c (by simp [hc]))
    cases h : (w' ++ t).head? <;> simp [Option.all, ha, ih']

theorem noTwoSpaces_of_nonspace (w : List Char) (hw : ∀ c ∈ w, pyIsSpace c = false) :
    noTwoSpaces w = true := by
  have := noTwoSpaces_append w [] hw rfl
  simpa using this

theorem joinSpace_ne_nil {w : List Char} (ws : List (List Char)) (h : w ≠ []) :
    joinSpace (w :: ws) ≠ [] := by
  cases ws with
  | nil => simpa [joinSpace]
  | cons w2 ws' =>
    rw [joinSpace_cons_cons]
    simp [h]

theorem joined_wf (ws : List (List Char))
    (h : ∀ w ∈ ws, w ≠ [] ∧ ∀ c ∈ w, pyIsSpace c = false) :
    ((joinSpace ws).head?.all fun c => !pyIsSpace c) = true ∧
    ((joinSpace ws).getLast?.all fun c => !pyIsSpace c) = true ∧
    noTwoSpaces (joinSpace ws) = true := by
  induction ws with
  | nil =>
    refine ⟨by simp [joinSpace, Option.all], by simp [joinSpace, Option.all], rfl⟩
  | cons w ws' ih =>
    have hw := h w (by simp)
    cases ws' with
    | nil =>
      have hj : joinSpace [w] = w := by simp [joinSpace]
      rw [hj]
      refine ⟨?_, ?_, noTwoSpaces_of_nonspace w hw.2⟩
      · cases hhd : w.head? with
        | none => simp [Option.all]
        | some a =>
          simp [Option.all, hw.2 a (List.mem_of_mem_head? hhd)]
      · cases hlast : w.getLast? with
        | none => simp [Option.all]
        | some a =>
          simp [Option.all, hw.2 a (List.mem_of_mem_getLast? hlast)]
    | cons w2 ws'' =>
      have ih' := ih (fun v hv => h v (by simp [hv]))
      have hne : joinSpace (w2 :: ws'') ≠ [] :=
        joinSpace_ne_nil ws'' (h w2 (by simp)).1
      rw [joinSpace_cons_cons]
      refine ⟨?_, ?_, ?_⟩
      · rw [List.head?_append]
        cases hhd : w.head? with
        | none => exact absurd (List.head?_eq_none_iff.mp hhd) hw.1
        | some a =>
          simp [Option.all, hw.2 a (List.mem_of_mem_head? hhd)]
      · rw [List.getLast?_append]
        have h2 : (' ' :: joinSpace (w2 :: ws'')).getLast? = (joinSpace (w2 :: ws'')).getLast? := by
          rw [List.getLast?_cons]
          cases hlast : (joinSpace (w2 :: ws'')).getLast? with
          | none => exact absurd (List.getLast?_eq_none_iff.mp hlast) hne
          | some a => rfl
        rw [h2]
        have h3 : (joinSpace (w2 :: ws'')).getLast? ≠ none := by
          intro hcon
          exact hne (List.getLast?_eq_none_iff.mp hcon)
        cases hlast : (joinSpace (w2 :: ws'')).getLast? with
        | none => exact absurd hlast h3
        | some a =>
          rw [hlast] at ih'
          simpa using ih'.2.1
      · refine noTwoSpaces_append w _ hw.2 ?_
        rw [noTwoSpaces_cons]
        rw [Bool.and_eq_true]
        refine ⟨?_, ih'.2.2⟩
        cases hhd : (joinSpace (w2 :: ws'')).head? with
        | none => simp [Option.all]
        | some a =>
          rw [hhd] at ih'
          simp only [Option.all] at ih' ⊢
          simp only [Bool.not_eq_true'] at ih'
          simp [ih'.1]

theorem mask_pyCapitalize (l : List Char) :
    (pyCapitalize l).map pyIsSpace = l.map pyIsSpace := by
  cases l with
  | nil => rfl
  | cons c rest =>
    simp only [pyCapitalize, List.map_cons, pyIsSpace_toUpper, lowerStr, List.map_map]
    congr 1
    apply List.map_congr_left
    intro a _
    exact pyIsSpace_toLower a

theorem normal_form_of_capitalize_join (r : List Char) :
    (((pyCapitalize (joinSpace (pySplit r))).head?.all fun c => !pyIsSpace c) = true) ∧
    (((pyCapitalize (joinSpace (pySplit r))).getLast?.all fun c => !pyIsSpace c) = true) ∧
    noTwoSpaces (pyCapitalize (joinSpace (pySplit r))) = true ∧
    ((pyCapitalize (joinSpace (pySplit r))).tail.all fun c => !c.isUpper) = true := by
  have hwf := joined_wf (pySplit r) (pySplit_words_wf r)
  cases hg : joinSpace (pySplit r) with
  | nil => simp [pyCapitalize, Option.all, noTwoSpaces]
  | cons a rest =>
    rw [hg] at hwf
    refine ⟨?_, ?_, ?_, ?_⟩
    · simp only [pyCapitalize, List.head?_cons, Option.all]
      rw [pyIsSpace_toUpper]
      simpa [Option.all] using hwf.1
    · simp only [pyCapitalize]
      cases rest with
      | nil =>
        simp only [lowerStr, List.map_nil, List.getLast?_singleton, Option.all]
        rw [pyIsSpace_toUpper]
        simpa [Option.all] using hwf.1
      | cons b rest' =>
        have hmap : lowerStr (b :: rest') = Char.toLower b :: lowerStr rest' := rfl
        rw [hmap, List.getLast?_cons_cons]
        have h2 : (Char.toLower b :: lowerStr rest').getLast? =
            ((b :: rest').getLast?).map Char.toLower := by
          rw [← List.getLast?_map]
          rfl
        rw [h2]
        have h3 := hwf.2.1
        rw [List.getLast?_cons_cons] at h3
        cases hlast : (b :: rest').getLast? with
        | none => simp [Option.all]
        | some x =>
          rw [hlast] at h3
          simp only [Option.map_some', Option.all, pyIsSpace_toLower]
          simpa [Option.all] using h3
    · rw [noTwoSpaces_eq_mask, mask_pyCapitalize, ← noTwoSpaces_eq_mask]
      exact hwf.2.2
    · simp only [pyCapitalize, List.tail_cons, lowerStr, List.all_map]
      apply List.all_eq_true.mpr
      intro x _
      simp [isUpper_toLower]

/-! ### Claim theorems -/

/-- C10: for every input string, the output of clean_text is in a fixed
normal form: no leading whitespace, no trailing whitespace, no run of two or
more consecutive whitespace characters, and no character after the first is
uppercase (so acronyms and proper nouns are lowercased). -/
theorem clean_text_normal_form (t : List Char) :
    ((clean_text t).head?.all fun c => !pyIsSpace c) = true ∧
    ((clean_text t).getLast?.all fun c => !pyIsSpace c) = true ∧
    noTwoSpaces (clean_text t) = true ∧
    ((clean_text t).tail.all fun c => !c.isUpper) = true := by
  unfold clean_text
  exact normal_form_of_capitalize_join _

/-- C5: search returns at most 5 records; on provider success it is exactly
the truncation of the organic list to its first 5 entries (hence ordered as
the provider returned them); on transport/HTTP failure it returns the
single-element error-marker list instead of raising. -/
theorem search_contract (resp : Except (List Char) (List RawResult)) :
    (search resp).length ≤ 5 ∧
    (∀ l : List RawResult, search (Except.ok l) = l.take 5) ∧
    (∀ e : List Char, search (Except.error e) = [search_error_marker e]) := by
  refine ⟨?_, fun l => rfl, fun e => rfl⟩
  cases resp with
  | ok l => simp [search]
  | error e => simp [search]

/-- C9: when the search fails, the error marker produced by search (which has
no link key) is fed into the analyzer, so the pipeline output is a single
Failure record whose url field is null, not the marker itself. -/
theorem run_tool_failed_search (sentTok wordTok : List Char → List (List Char))
    (stops : List (List Char)) (env : List Char → Except (List Char) Soup)
    (e : List Char) :
    run_tool sentTok wordTok stops env (Except.error e) =
      [PageAnalysis.failure none (scrape_error missing_url_message)
        (("No snippet available").data) none] ∧
    (run_tool sentTok wordTok stops env (Except.error e)).map PageAnalysis.url = [none] ∧
    (run_tool sentTok wordTok stops env (Except.error e)).map PageAnalysis.isFailure =
      [true] := by
  refine ⟨?_, ?_, ?_⟩ <;> rfl

/-- The per-candidate record always stores `result.get(link-key)` in its url
field, in both variants. -/
theorem analyze_one_url (sentTok wordTok : List Char → List (List Char))
    (stops : List (List Char)) (env : List Char → Except (List Char) Soup)
    (r : RawResult) : (analyze_one sentTok wordTok stops env r).url = r.link := by
  unfold analyze_one
  cases r.link with
  | none => rfl
  | some url =>
    cases h : env url with
    | error e => simp [h, PageAnalysis.url]
    | ok soup => simp [h, PageAnalysis.url]

/-- C1: the analyzer returns one PageAnalysis per input record, in the same
order, and at every position the output url field equals the source record's
url; in particular, when the source record has a url (every SearchResult
does), the output url field is present and equal to it. -/
theorem scrape_and_analyze_length_order_urls
    (sentTok wordTok : List Char → List (List Char)) (stops : List (List Char))
    (env : List Char → Except (List Char) Soup) (results : List RawResult) :
    (scrape_and_analyze sentTok wordTok stops env results).length = results.length ∧
    (∀ i : Nat, ((scrape_and_analyze sentTok wordTok stops env results)[i]?).map
      PageAnalysis.url = (results[i]?).map RawResult.link) ∧
    (∀ i : Nat, ∀ r : RawResult, results[i]? = some r → r.link.isSome = true →
      ∃ p : PageAnalysis,
        (scrape_and_analyze sentTok wordTok stops env results)[i]? = some p ∧
        p.url = r.link ∧ p.url.isSome = true) := by
  refine ⟨by simp [scrape_and_analyze], ?_, ?_⟩
  · intro i
    unfold scrape_and_analyze
    rw [List.getElem?_map]
    cases results[i]? with
    | none => rfl
    | some r => simp [analyze_one_url]
  · intro i r hr hsome
    refine ⟨analyze_one sentTok wordTok stops env r, ?_, analyze_one_url _ _ _ _ r, ?_⟩
    · unfold scrape_and_analyze
      rw [List.getElem?_map, hr]
      rfl
    · rw [analyze_one_url]
      exact hsome

/-- C1 witness: a concrete two-candidate run. -/
theorem scrape_and_analyze_length_order_urls_witness :
    ∃ p : PageAnalysis,
      (scrape_and_analyze (fun t => [t]) (fun t => pySplit t) []
        (fun _ => Except.error ("connection refused").data)
        [{ link := some ("http://a.example").data, snippet := none, date := none,
           error := none },
         { link := some ("http://b.example").data, snippet := none, date := none,
           error := none }])[1]? = some p ∧
      p.url = some ("http://b.example").data ∧ p.url.isSome = true :=
  (scrape_and_analyze_length_order_urls (fun t => [t]) (fun t => pySplit t) []
    (fun _ => Except.error ("connection refused").data)
    [{ link := some ("http://a.example").data, snippet := none, date := none,
       error := none },
     { link := some ("http://b.example").data, snippet := none, date := none,
       error := none }]).2.2 1
    { link := some ("http://b.example").data, snippet := none, date := none, error := none }
    rfl rfl

/-- C2: when the fetch/parse/analysis of candidate i raises (the environment
yields an error, covering non-2xx status via raise_for_status, transport
errors, and parse errors), the output at position i is exactly the Failure
variant carrying the exception message in its error field (so none of the
success-only fields exist on it), the batch still has one output per input,
and every other candidate is processed independently. -/
theorem analyze_error_failure (sentTok wordTok : List Char → List (List Char))
    (stops : List (List Char)) (env : List Char → Except (List Char) Soup)
    (rs : List RawResult) (i : Nat) (r : RawResult) (u e : List Char)
    (hr : rs[i]? = some r) (hl : r.link = some u) (he : env u = Except.error e) :
    (scrape_and_analyze sentTok wordTok stops env rs)[i]? =
      some (PageAnalysis.failure (some u) (scrape_error e) (snippet_of r) r.date) ∧
    (scrape_and_analyze sentTok wordTok stops env rs).length = rs.length ∧
    (∀ j : Nat, (scrape_and_analyze sentTok wordTok stops env rs)[j]? =
      (rs[j]?).map (analyze_one sentTok wordTok stops env)) := by
  refine ⟨?_, by simp [scrape_and_analyze],
    fun j => by simp [scrape_and_analyze]⟩
  unfold scrape_and_analyze
  rw [List.getElem?_map, hr]
  simp only [Option.map_some']
  congr 1
  unfold analyze_one
  simp [hl, he]

/-- A concrete candidate and failing environment used by witnesses. -/
def wres : RawResult := ⟨some (("http://x.example").data), none, none, none⟩

def wenv : List Char → Except (List Char) Soup :=
  fun _ => Except.error (("404 Client Error").data)

/-- C2 witness: a one-candidate batch whose fetch returns an HTTP error. -/
theorem analyze_error_failure_witness :
    (scrape_and_analyze (fun t => [t]) (fun t => pySplit t) [] wenv [wres])[0]? =
      some (PageAnalysis.failure (some (("http://x.example").data))
        (scrape_error (("404 Client Error").data)) (snippet_of wres) none) ∧
    (scrape_and_analyze (fun t => [t]) (fun t => pySplit t) [] wenv [wres]).length = 1 ∧
    (∀ j : Nat,
      (scrape_and_analyze (fun t => [t]) (fun t => pySplit t) [] wenv [wres])[j]? =
      ([wres][j]?).map (analyze_one (fun t => [t]) (fun t => pySplit t) [] wenv)) :=
  analyze_error_failure (fun t => [t]) (fun t => pySplit t) [] wenv [wres] 0 wres
    (("http://x.example").data) (("404 Client Error").data) rfl rfl rfl

theorem word_count_replicate_word (n : Nat) :
    word_count (joinSpace (List.replicate n ("word").data)) = n := by
  cases n with
  | zero => rfl
  | succ m =>
    unfold word_count
    rw [pySplit_joinSpace]
    · exact List.length_replicate _ _
    · intro w hw
      rw [List.eq_of_mem_replicate hw]
      exact ⟨by decide, by decide⟩

/-- C4: the reading time is the word count divided by 200 rounded up (the
characterizing inequalities of the ceiling), formatted with the singular
marker exactly for one minute (plural also for zero); it is monotonically
non-decreasing in word count, and texts of 199, 200 and 201 repeated words
give one, one and two minutes. -/
theorem reading_time_spec :
    (∀ t1 t2 : List Char, word_count t1 ≤ word_count t2 →
      reading_minutes t1 ≤ reading_minutes t2) ∧
    (∀ t : List Char, 200 * reading_minutes t < word_count t + 200 ∧
      word_count t ≤ 200 * reading_minutes t) ∧
    (∀ t : List Char, estimate_reading_time t =
      (Nat.repr (reading_minutes t)).data ++ (" minute").data ++
        (if reading_minutes t ≠ 1 then ("s").data else [])) ∧
    estimate_reading_time (joinSpace (List.replicate 199 ("word").data)) =
      ("1 minute").data ∧
    estimate_reading_time (joinSpace (List.replicate 200 ("word").data)) =
      ("1 minute").data ∧
    estimate_reading_time (joinSpace (List.replicate 201 ("word").data)) =
      ("2 minutes").data := by
  refine ⟨?_, ?_, fun t => rfl, ?_, ?_, ?_⟩
  · intro t1 t2 h
    unfold reading_minutes
    exact Nat.div_le_div_right (by omega)
  · intro t
    unfold reading_minutes
    omega
  · show fmt_minutes (reading_minutes _) = _
    unfold reading_minutes
    rw [word_count_replicate_word]
    decide
  · show fmt_minutes (reading_minutes _) = _
    unfold reading_minutes
    rw [word_count_replicate_word]
    decide
  · show fmt_minutes (reading_minutes _) = _
    unfold reading_minutes
    rw [word_count_replicate_word]
    decide

/-- C4 witness: monotonicity applied at two concrete texts. -/
theorem reading_time_spec_witness :
    reading_minutes [] ≤ reading_minutes (("a b").data) :=
  reading_time_spec.1 [] (("a b").data) (by decide)

/-- The credibility formula exactly as the specification words it: its https
bonus is conditioned on the url scheme being https (`urlparse` semantics,
scheme lowercased), not on a literal prefix test. Every other clause follows
the code. -/
def credibility_spec_formula (url : List Char) (soup : Soup) : ℚ :=
  round2 ((if trusted_domains.any (fun d => containsSub d (netlocOf url)) then (3:ℚ)/10 else 0)
    + (if 2000 < soup.text.length then (2:ℚ)/10 else 0)
    + (if soup.hasAuthor then (2:ℚ)/10 else 0)
    + (if soup.hasCite then (2:ℚ)/10 else 0)
    + (if (splitScheme url).1 = ("https").data then (1:ℚ)/10 else 0))

/-- A page with no title, no paragraphs, empty text and no markers. -/
def wsoup : Soup := ⟨none, [], [], false, false⟩

/-- C3 counterexample: for the url HTTPS://example.com (scheme is https, as
urlparse lowercases the scheme) over a short, author-less, citation-less
page, the code awards no https bonus (it tests the case-sensitive literal
prefix https) and returns 0.0, while the claimed formula yields 0.1. -/
theorem credibility_claim_counterexample :
    estimate_credibility (("HTTPS://example.com").data) wsoup = 0 ∧
    credibility_spec_formula (("HTTPS://example.com").data) wsoup = 1/10 ∧
    (splitScheme (("HTTPS://example.com").data)).1 = ("https").data ∧
    estimate_credibility (("HTTPS://example.com").data) wsoup ≠
      credibility_spec_formula (("HTTPS://example.com").data) wsoup := by
  have hdom : trusted_domains.any
      (fun d => containsSub d (netlocOf (("HTTPS://example.com").data))) = false := by decide
  have hpre : ("https").data.isPrefixOf (("HTTPS://example.com").data) = false := by decide
  have hscheme : (splitScheme (("HTTPS://example.com").data)).1 = ("https").data := by decide
  have h1 : estimate_credibility (("HTTPS://example.com").data) wsoup = 0 := by
    simp only [estimate_credibility, hdom, hpre, Bool.false_eq_true, if_false, wsoup,
      List.length_nil]
    norm_num [round2, roundHalfEven, ratFloor_eq_floor]
  have h2 : credibility_spec_formula (("HTTPS://example.com").data) wsoup = 1/10 := by
    simp only [credibility_spec_formula, hdom, hscheme, Bool.false_eq_true, if_false,
      if_true, wsoup, List.length_nil]
    norm_num [round2, roundHalfEven, ratFloor_eq_floor]
  exact ⟨h1, h2, hscheme, by rw [h1, h2]; norm_num⟩

theorem ite_acc (c : Prop) [Decidable c] (x a : ℚ) :
    (if c then x + a else x) = x + (if c then a else 0) := by
  split <;> simp

/-- C3 amended: the credibility score is the two-decimal rounding of the sum
of the five bonuses, with the https bonus awarded iff the url starts with the
literal (case-sensitive) string https; the score lies in [0,1], and is
exactly 0 when no bonus applies. -/
theorem estimate_credibility_spec (url : List Char) (soup : Soup) :
    estimate_credibility url soup =
      round2 ((if trusted_domains.any (fun d => containsSub d (netlocOf url)) then (3:ℚ)/10 else 0)
        + (if 2000 < soup.text.length then (2:ℚ)/10 else 0)
        + (if soup.hasAuthor then (2:ℚ)/10 else 0)
        + (if soup.hasCite then (2:ℚ)/10 else 0)
        + (if ("https").data.isPrefixOf url then (1:ℚ)/10 else 0)) ∧
    0 ≤ estimate_credibility url soup ∧ estimate_credibility url soup ≤ 1 ∧
    (trusted_domains.any (fun d => containsSub d (netlocOf url)) = false →
      soup.text.length ≤ 2000 → soup.hasAuthor = false → soup.hasCite = false →
      ("https").data.isPrefixOf url = false → estimate_credibility url soup = 0) := by
  refine ⟨?_, ?_, ?_, ?_⟩
  · simp only [estimate_credibility, ite_acc]
    congr 1
    ring
  · simp only [estimate_credibility]
    split_ifs <;> norm_num [round2, roundHalfEven, ratFloor_eq_floor]
  · simp only [estimate_credibility]
    split_ifs <;> norm_num [round2, roundHalfEven, ratFloor_eq_floor]
  · intro h1 h2 h3 h4 h5
    simp only [estimate_credibility, h1, h3, h4, h5, Bool.false_eq_true, if_false,
      if_neg (by omega : ¬(2000 < soup.text.length))]
    norm_num [round2, roundHalfEven, ratFloor_eq_floor]

/-- C3 amended witness: the all-negative page scores exactly 0. -/
theorem estimate_credibility_spec_witness :
    estimate_credibility (("x").data) wsoup = 0 :=
  (estimate_credibility_spec (("x").data) wsoup).2.2.2 (by decide)
    (by simp [wsoup]) rfl rfl (by decide)

/-! ### Keys of the ordered counters -/

theorem mem_addScore_fst (acc : List (List Char × Nat)) (s : List Char) (sc : Nat)
    (p : List Char × Nat) (hp : p ∈ addScore acc s sc) :
    p.1 = s ∨ p.1 ∈ acc.map Prod.fst := by
  unfold addScore at hp
  split at hp
  · rcases List.mem_map.mp hp with ⟨q, hq, hpq⟩
    by_cases h : q.1 = s
    · left
      rw [← hpq]
      simp [h]
    · right
      rw [← hpq]
      simp only [h, if_false]
      exact List.mem_map_of_mem _ hq
  · rcases List.mem_append.mp hp with h | h
    · right
      exact List.mem_map_of_mem _ h
    · left
      simp only [List.mem_singleton] at h
      rw [h]

theorem foldl_addScore_fst (f : List Char → Nat) :
    ∀ (l : List (List Char)) (acc : List (List Char × Nat)),
      ∀ p ∈ l.foldl (fun a w => addScore a w (f w)) acc,
        p.1 ∈ l ∨ p.1 ∈ acc.map Prod.fst := by
  intro l
  induction l with
  | nil =>
    intro acc p hp
    right
    exact List.mem_map_of_mem _ hp
  | cons w l' ih =>
    intro acc p hp
    rcases ih (addScore acc w (f w)) p hp with h | h
    · exact Or.inl (List.mem_cons_of_mem _ h)
    · rcases List.mem_map.mp h with ⟨q, hq, hpq⟩
      rcases mem_addScore_fst acc w (f w) q hq with h2 | h2
      · left
        rw [← hpq, h2]
        exact List.mem_cons_self _ _
      · right
        rw [← hpq]
        exact h2

theorem foldl_condScore_fst (g : List Char → Nat) :
    ∀ (l : List (List Char)) (acc : List (List Char × Nat)),
      ∀ p ∈ l.foldl (fun a s => if 0 < g s then addScore a s (g s) else a) acc,
        p.1 ∈ l ∨ p.1 ∈ acc.map Prod.fst := by
  intro l
  induction l with
  | nil =>
    intro acc p hp
    right
    exact List.mem_map_of_mem _ hp
  | cons w l' ih =>
    intro acc p hp
    rcases ih (if 0 < g w then addScore acc w (g w) else acc) p hp with h | h
    · exact Or.inl (List.mem_cons_of_mem _ h)
    · by_cases hc : 0 < g w
      · rw [if_pos hc] at h
        rcases List.mem_map.mp h with ⟨q, hq, hpq⟩
        rcases mem_addScore_fst acc w (g w) q hq with h2 | h2
        · left
          rw [← hpq, h2]
          exact List.mem_cons_self _ _
        · right
          rw [← hpq]
          exact h2
      · rw [if_neg hc] at h
        exact Or.inr h

theorem counterList_keys (l : List (List Char)) :
    ∀ p ∈ counterList l, p.1 ∈ l := by
  intro p hp
  rcases foldl_addScore_fst (fun _ => 1) l [] p hp with h | h
  · exact h
  · simp at h

theorem sortDesc_mem {l : List (List Char × Nat)} {p : List Char × Nat}
    (hp : p ∈ sortDesc l) : p ∈ l :=
  ((List.perm_insertionSort _ _).mem_iff).mp hp

theorem lowerStr_idem (s : List Char) : lowerStr (lowerStr s) = lowerStr s := by
  unfold lowerStr
  rw [List.map_map]
  exact List.map_congr_left fun c _ => toLower_toLower c

/-- C7: the keyword list has length at most 10, every keyword is an
alphanumeric token and not a stopword, and the extraction is invariant under
case-folding the input first (the tokens are case-folded before filtering and
counting, so pre-lowercasing the text changes nothing). -/
theorem extract_keywords_spec (wordTok : List Char → List (List Char))
    (stops : List (List Char)) (text : List Char) :
    (extract_keywords wordTok stops text).length ≤ 10 ∧
    (∀ k ∈ extract_keywords wordTok stops text,
      pyIsAlnumTok k = true ∧ k ∉ stops) ∧
    extract_keywords wordTok stops (lowerStr text) =
      extract_keywords wordTok stops text := by
  refine ⟨?_, ?_, ?_⟩
  · unfold extract_keywords
    rw [List.length_map]
    exact List.length_take_le _ _
  · intro k hk
    unfold extract_keywords at hk
    rcases List.mem_map.mp hk with ⟨p, hp, hpk⟩
    have hp2 : p ∈ counterList ((wordTok (lowerStr text)).filter
        (fun w => pyIsAlnumTok w && !(decide (w ∈ stops)))) :=
      sortDesc_mem (List.take_subset _ _ hp)
    have hp3 := counterList_keys _ p hp2
    have hp4 := List.of_mem_filter hp3
    rw [Bool.and_eq_true] at hp4
    rw [← hpk]
    refine ⟨hp4.1, ?_⟩
    have := hp4.2
    simp only [Bool.not_eq_true', decide_eq_false_iff_not] at this
    exact this
  · unfold extract_keywords
    rw [lowerStr_idem]

/-- C7 witness: concrete keywords of a tiny text with one stopword. -/
theorem extract_keywords_spec_witness :
    pyIsAlnumTok (("cat").data) = true ∧ ("cat").data ∉ [("the").data] :=
  (extract_keywords_spec (fun t => pySplit t) [("the").data]
    (("The the cat cat dog").data)).2.1 (("cat").data) (by decide)

/-- C6: the summary word count never exceeds 500; at most 15 sentences are
selected, each a sentence of the tokenized document; the selection list is
the score dict stably sorted descending by score (the documented behaviour
of nlargest), and the final text is the join of the selected sentences,
truncated to its first 500 whitespace words with a literal ellipsis appended
exactly when truncation occurred. -/
theorem summarize_text_spec (sentTok : List Char → List (List Char))
    (stops : List (List Char)) (text : List Char) :
    word_count (summarize_text sentTok stops text 500) ≤ 500 ∧
    (selected_sentences sentTok stops text).length ≤ 15 ∧
    (∀ s ∈ selected_sentences sentTok stops text, s ∈ sentTok text) ∧
    List.Sorted (fun a b => b.2 ≤ a.2)
      (sortDesc (sentence_scores stops (sentTok text))) ∧
    List.Perm (sortDesc (sentence_scores stops (sentTok text)))
      (sentence_scores stops (sentTok text)) ∧
    (word_count (joinSpace (selected_sentences sentTok stops text)) ≤ 500 →
      summarize_text sentTok stops text 500 =
        joinSpace (selected_sentences sentTok stops text)) ∧
    (500 < word_count (joinSpace (selected_sentences sentTok stops text)) →
      summarize_text sentTok stops text 500 =
        joinSpace ((pySplit (joinSpace (selected_sentences sentTok stops text))).take 500)
          ++ ("...").data) := by
  have hr : ∀ (a b : List Char × Nat), (fun a b => b.2 ≤ a.2) a b ∨ (fun a b => b.2 ≤ a.2) b a :=
    fun a b => Nat.le_total b.2 a.2
  haveI hTotal : IsTotal (List Char × Nat) (fun a b => b.2 ≤ a.2) := ⟨hr⟩
  haveI hTrans : IsTrans (List Char × Nat) (fun a b => b.2 ≤ a.2) :=
    ⟨fun _ _ _ hab hbc => Nat.le_trans hbc hab⟩
  refine ⟨?_, ?_, ?_, ?_, ?_, ?_, ?_⟩
  · unfold summarize_text word_count
    dsimp only
    split
    · next h =>
      set ws := pySplit (joinSpace (selected_sentences sentTok stops text)) with hws
      have hwf : ∀ w ∈ ws.take 500, w ≠ [] ∧ ∀ c ∈ w, pyIsSpace c = false :=
        fun w hw => pySplit_words_wf _ w (List.take_subset _ _ hw)
      have hne : ws.take 500 ≠ [] := by
        have h500 : (ws.take 500).length = 500 := by
          rw [List.length_take]
          omega
        intro hcon
        rw [hcon] at h500
        simp at h500
      rw [pySplit_joinSpace_append_length (ws.take 500) (("...").data) hne hwf (by decide)]
      rw [List.length_take]
      omega
    · next h =>
      omega
  · unfold selected_sentences
    rw [List.length_map]
    exact List.length_take_le _ _
  · intro s hs
    unfold selected_sentences at hs
    rcases List.mem_map.mp hs with ⟨p, hp, hps⟩
    have hp2 : p ∈ sentence_scores stops (sentTok text) :=
      sortDesc_mem (List.take_subset _ _ hp)
    unfold sentence_scores at hp2
    rcases foldl_condScore_fst (sentenceScore (docFreq stops (sentTok text)))
      (sentTok text) [] p hp2 with h | h
    · rw [← hps]
      exact h
    · simp at h
  · exact List.sorted_insertionSort _ _
  · exact List.perm_insertionSort _ _
  · intro h
    unfold summarize_text
    dsimp only
    rw [if_neg]
    unfold word_count at h
    omega
  · intro h
    unfold summarize_text
    dsimp only
    rw [if_pos]
    unfold word_count at h
    omega

/-- C6 witness: a one-sentence document is returned untruncated, and the
selected sentence is a sentence of the document. -/
theorem summarize_text_spec_witness :
    (("aa bb").data ∈ (fun t => [t]) (("aa bb").data) ∧
     summarize_text (fun t => [t]) [] (("aa bb").data) 500 =
       joinSpace (selected_sentences (fun t => [t]) [] (("aa bb").data))) :=
  ⟨(summarize_text_spec (fun t => [t]) [] (("aa bb").data)).2.2.1
      (("aa bb").data) (by decide),
   (summarize_text_spec (fun t => [t]) [] (("aa bb").data)).2.2.2.2.2.1 (by decide)⟩

/-! ### Idempotence of `clean_text` on clean inputs -/

theorem removePhrase_of_not_contains : ∀ {pat s : List Char},
    containsSub pat s = false → removePhrase pat s = s := by
  intro pat s
  induction s with
  | nil => intro _; rfl
  | cons c rest ih =>
    intro h
    unfold containsSub at h
    rw [Bool.or_eq_false_iff] at h
    obtain ⟨h1, h2⟩ := h
    have hnm : ¬(pat ≠ [] ∧ pat.isPrefixOf (c :: rest) = true) := by
      intro hc
      rw [hc.2] at h1
      exact absurd h1 (by decide)
    rw [removePhrase_cons_nomatch hnm, ih h2]

theorem foldl_removePhrase_id : ∀ (ps : List (List Char)) (s : List Char),
    (∀ p ∈ ps, containsSub p s = false) →
    ps.foldl (fun t p => removePhrase p t) s = s := by
  intro ps
  induction ps with
  | nil => intro s _; rfl
  | cons p ps' ih =>
    intro s h
    show ps'.foldl _ (removePhrase p s) = s
    rw [removePhrase_of_not_contains (h p (by simp))]
    exact ih s fun q hq => h q (by simp [hq])

theorem lowerStr_isEmpty (acc : List Char) : (lowerStr acc).isEmpty = acc.isEmpty := by
  cases acc <;> rfl

theorem pySplitAux_lowerStr : ∀ (s acc : List Char),
    pySplitAux (lowerStr s) (lowerStr acc) = (pySplitAux s acc).map lowerStr := by
  intro s
  induction s with
  | nil =>
    intro acc
    show (if (lowerStr acc).isEmpty then ([] : List (List Char))
      else [(lowerStr acc).reverse]) = _
    rw [lowerStr_isEmpty]
    by_cases h : acc.isEmpty
    · simp [pySplitAux, h]
    · have h' : acc.isEmpty = false := by
        cases hv : acc.isEmpty
        · rfl
        · exact absurd hv h
      simp [pySplitAux, h', lowerStr, List.map_reverse]
  | cons c rest ih =>
    intro acc
    show pySplitAux (Char.toLower c :: lowerStr rest) (lowerStr acc) = _
    cases hcv : pyIsSpace c with
    | true =>
      have hc' : pyIsSpace (Char.toLower c) = true := by rw [pyIsSpace_toLower]; exact hcv
      simp only [pySplitAux, hc', hcv, if_true, lowerStr_isEmpty]
      by_cases ha : acc.isEmpty
      · rw [if_pos ha, if_pos ha]
        have := ih []
        simpa [lowerStr] using this
      · have ha' : acc.isEmpty = false := by
          cases hv : acc.isEmpty
          · rfl
          · exact absurd hv ha
        rw [ha']
        simp only [Bool.false_eq_true, if_false]
        have h0 : pySplitAux (lowerStr rest) ([] : List Char) =
            List.map lowerStr (pySplitAux rest []) := ih []
        rw [h0]
        simp [lowerStr, List.map_reverse]
    | false =>
      have hc' : pyIsSpace (Char.toLower c) = false := by rw [pyIsSpace_toLower]; exact hcv
      simp only [pySplitAux, hc', hcv, Bool.false_eq_true, if_false]
      have := ih (c :: acc)
      simpa [lowerStr] using this

theorem pySplit_lowerStr (s : List Char) :
    pySplit (lowerStr s) = (pySplit s).map lowerStr := by
  have := pySplitAux_lowerStr s []
  simpa [pySplit, lowerStr] using this

theorem joinSpace_map_lowerStr : ∀ (ws : List (List Char)),
    joinSpace (ws.map lowerStr) = lowerStr (joinSpace ws)
  | [] => rfl
  | [w] => rfl
  | w :: w2 :: ws => by
    show lowerStr w ++ ' ' :: joinSpace ((w2 :: ws).map lowerStr) = _
    rw [joinSpace_map_lowerStr (w2 :: ws)]
    show _ = lowerStr (w ++ ' ' :: joinSpace (w2 :: ws))
    simp only [lowerStr, List.map_append, List.map_cons]
    rw [show Char.toLower ' ' = ' ' by decide]

theorem lowerStr_pyCapitalize_lowerStr (z : List Char) :
    lowerStr (pyCapitalize (lowerStr z)) = lowerStr z := by
  cases z with
  | nil => rfl
  | cons c rest =>
    show lowerStr (Char.toUpper (Char.toLower c) :: lowerStr (lowerStr rest)) = _
    simp only [lowerStr, List.map_cons, List.map_map]
    refine List.cons_eq_cons.mpr ⟨toLower_toUpper_toLower c, ?_⟩
    refine List.map_congr_left fun a _ => ?_
    show Char.toLower (Char.toLower (Char.toLower a)) = Char.toLower a
    rw [toLower_toLower, toLower_toLower]

/-- C8: clean_text is idempotent on inputs that contain no denylisted phrase
(no phrase occurs in the lowercased input, matching the case-insensitive
denylist matching the specification defines) and no extra whitespace (the
input is a fixed point of whitespace normalization). -/
theorem clean_text_idempotent (x : List Char)
    (hph : ∀ p ∈ unwanted_phrases, containsSub p (lowerStr x) = false)
    (hws : joinSpace (pySplit x) = x) :
    clean_text (clean_text x) = clean_text x := by
  have hfold : unwanted_phrases.foldl (fun t p => removePhrase p t) (lowerStr x) =
      lowerStr x := foldl_removePhrase_id unwanted_phrases (lowerStr x) hph
  have hjs : joinSpace (pySplit (lowerStr x)) = lowerStr x := by
    rw [pySplit_lowerStr, joinSpace_map_lowerStr, hws]
  have h1 : clean_text x = pyCapitalize (lowerStr x) := by
    unfold clean_text
    rw [hfold, hjs]
  have hlow : lowerStr (clean_text x) = lowerStr x := by
    rw [h1]
    exact lowerStr_pyCapitalize_lowerStr x
  have hdef : ∀ y, clean_text y = pyCapitalize (joinSpace (pySplit
      (unwanted_phrases.foldl (fun s p => removePhrase p s) (lowerStr y)))) := fun _ => rfl
  have h2 : clean_text (clean_text x) = pyCapitalize (lowerStr x) := by
    rw [hdef (clean_text x), hlow, hfold, hjs]
  rw [h2, h1]

/-- C8 witness: a concrete clean input. -/
theorem clean_text_idempotent_witness :
    clean_text (clean_text (("hello world").data)) = clean_text (("hello world").data) :=
  clean_text_idempotent (("hello world").data) (by decide) (by decide)
